import Mathlib

set_option linter.unusedVariables false

/-!
# Verification of the `bingo` global package cache and LSP dispatch core

Shallow embedding of `langserver/internal/cache/cache.go` (the `GlobalCache`
multi-index store with recursive ingestion and priority traversal),
`langserver/handler.go` / `handler_common.go` (the dispatch lifecycle), and
the `GlobalPackage` nil-receiver accessors.

Go maps are embedded as association lists with unique keys (insertion erases
the old binding first); the ambient filesystem is passed explicitly as an
oracle `FS` to every cache operation so that filesystem access is observable;
Go `nil` pointers are embedded as `Option`; Go `error` results as
`Option String` (`none` = nil error); `time.Time` as `Nat` (`0` = zero time).
-/

namespace Bingo

/-- Filesystem oracle: `fs path = some t` models a successful `os.Stat`
returning modification time `t`; `none` models a stat error. -/
abbrev FS : Type := String → Option Nat

/-- Association-list embedding of a Go `map[string]α` (unique keys). -/
abbrev AList (α : Type) : Type := List (String × α)

def lookupA {α : Type} : AList α → String → Option α
  | [], _ => none
  | (k, v) :: rest, key => if k = key then some v else lookupA rest key

def eraseA {α : Type} : AList α → String → AList α
  | [], _ => []
  | (k, v) :: rest, key =>
    if k = key then eraseA rest key else (k, v) :: eraseA rest key

/-- Go map assignment `m[k] = v` (overwrites any previous binding). -/
def insertA {α : Type} (m : AList α) (key : String) (v : α) : AList α :=
  (key, v) :: eraseA m key

/-- Modelled from the spec: the `Package` struct of
`langserver/internal/cache` is not under `src/`; per §3 a CompilationUnit has
a unique id, a canonical import path, a name, member file paths, an opaque
syntax/type/diagnostic payload (omitted), and a map from each direct
dependency's canonical path to the dependency's own unit. -/
inductive Package : Type where
  | mk (id : String) (pkgPath : String) (name : String)
      (files : List String) (imports : List (String × Package))

def Package.id : Package → String
  | .mk i _ _ _ _ => i

def Package.pkgPath : Package → String
  | .mk _ p _ _ _ => p

def Package.name : Package → String
  | .mk _ _ n _ _ => n

def Package.files : Package → List String
  | .mk _ _ _ fs _ => fs

def Package.imports : Package → List (String × Package)
  | .mk _ _ _ _ is => is

/-- One node of the input graph handed to `Add`
(a `*packages.Package`): `imports` lists the ids of the imported nodes,
resolved against the ambient graph (the Go code follows pointers; ids are
unique per node in a `go/packages` load). -/
structure PkgsNode : Type where
  id : String
  pkgPath : String
  name : String
  files : List String
  imports : List String
  deriving DecidableEq

/-- The input package graph: the set of nodes reachable from the root. -/
abbrev PkgsGraph : Type := List PkgsNode

def findNode (g : PkgsGraph) (i : String) : Option PkgsNode :=
  g.find? (fun n => n.id = i)

/-- `GlobalPackage`: a cached unit plus the on-disk modification time of its
primary file observed at ingestion (source: the `GlobalPackage` struct). -/
structure GlobalPackage : Type where
  pkg : Package
  modTime : Nat

/-- `GlobalPackage.Package()` on a possibly-nil receiver (source:
`func (p *GlobalPackage) Package() *Package`). -/
def packageOf : Option GlobalPackage → Option Package
  | none => none
  | some p => some p.pkg

/-- `GlobalPackage.ModTime()` on a possibly-nil receiver; the zero
`time.Time` is embedded as `0`. -/
def modTimeOf : Option GlobalPackage → Nat
  | none => 0
  | some p => p.modTime

/-- `GlobalCache`: the three indices (id, canonical path, lower-cased file
path), always mutated together. The `sync.RWMutex` is not part of the
sequential state. -/
structure GlobalCache : Type where
  idMap : AList GlobalPackage
  pathMap : AList GlobalPackage
  fileMap : AList GlobalPackage

/-- `NewCache()`. -/
def NewCache : GlobalCache := ⟨[], [], []⟩

/-- Modelled from the spec: `util.LowerDriver` is not under `src/`; per §4.2
"file path comparison is case-normalized (lower-cased)", it lower-cases the
path. -/
def LowerDriver (s : String) : String := ⟨s.data.map Char.toLower⟩

/-- `getPackageModTime`: stat of the first member file; zero time when the
package is nil, has no files, or the stat fails. -/
def getPackageModTime (fs : FS) : Option Package → Nat
  | none => 0
  | some pkg =>
    match pkg.files with
    | [] => 0
    | f :: _ =>
      match fs f with
      | none => 0
      | some t => t

/-- `GlobalCache.delete` (internal, non-nil receiver): remove the unit with
this id from all three indices; no-op when the id is absent. -/
def deleteC (st : GlobalCache) (id : String) : GlobalCache :=
  match lookupA st.idMap id with
  | none => st
  | some p =>
    { idMap := eraseA st.idMap id
      pathMap := eraseA st.pathMap p.pkg.pkgPath
      fileMap := p.pkg.files.foldl (fun m f => eraseA m (LowerDriver f)) st.fileMap }

/-- `GlobalCache.put` (internal, non-nil receiver): delete the old unit with
the same id, then insert the new unit into all three indices. -/
def putC (fs : FS) (st : GlobalCache) (pkg : Package) : GlobalCache :=
  let st1 := deleteC st pkg.id
  let p : GlobalPackage := ⟨pkg, getPackageModTime fs (some pkg)⟩
  { idMap := insertA st1.idMap pkg.id p
    pathMap := insertA st1.pathMap pkg.pkgPath p
    fileMap := pkg.files.foldl (fun m f => insertA m (LowerDriver f) p) st1.fileMap }

/-- `GlobalCache.get` (internal, non-nil receiver): id-index lookup piped
through the nil-tolerant `Package()` accessor. -/
def getC (st : GlobalCache) (id : String) : Option Package :=
  packageOf (lookupA st.idMap id)

/-- `GlobalCache.clean` (non-nil receiver): batched delete; explicit no-op on
an empty id list (the loop would be one anyway). -/
def cleanC (st : GlobalCache) (idList : List String) : GlobalCache :=
  match idList with
  | [] => st
  | _ => idList.foldl deleteC st

/-- `create(pkg)`: build a `Package` from a graph node; in the source the
imports map starts empty and is filled by the children's recursive calls
before the package is put, so here the accumulated imports are supplied. -/
def createP (node : PkgsNode) (imports : List (String × Package)) : Package :=
  .mk node.id node.pkgPath node.name node.files imports

mutual

/-- `GlobalCache.recusiveAdd` [sic]: if the node's id is already cached the
cached unit is returned for the parent's wiring and recursion stops;
otherwise the children are ingested first (each one level deeper), the new
unit is put, and it is returned for the parent's wiring. `fuel` models the
Go call stack: each nested `recusiveAdd` call consumes one unit, and `none`
means the depth bound was exceeded. -/
def recusiveAdd (fuel : Nat) (fs : FS) (g : PkgsGraph) (st : GlobalCache)
    (node : PkgsNode) : Option (GlobalCache × Package) :=
  match fuel with
  | 0 => none
  | fuel' + 1 =>
    match lookupA st.idMap node.id with
    | some p => some (st, p.pkg)
    | none =>
      match addImports fuel' fs g st node.imports [] with
      | none => none
      | some (st', acc) =>
        let p := createP node acc
        some (putC fs st' p, p)

/-- The `for _, ip := range pkg.Imports` loop of `recusiveAdd`: ingest each
child and wire it into the parent's imports map under the child's canonical
path. -/
def addImports (fuel : Nat) (fs : FS) (g : PkgsGraph) (st : GlobalCache)
    (cids : List String) (acc : List (String × Package)) :
    Option (GlobalCache × List (String × Package)) :=
  match cids with
  | [] => some (st, acc)
  | cid :: rest =>
    match findNode g cid with
    | none => none
    | some cnode =>
      match recusiveAdd fuel fs g st cnode with
      | none => none
      | some (st', cpkg) =>
        addImports fuel fs g st' rest ((cnode.pkgPath, cpkg) :: acc)

end

/-! ## Public operations (nil-guarded receivers)

Each public method of `*GlobalCache` first checks `c == nil` and degrades to
a no-op / absent result; a possibly-nil receiver is embedded as
`Option GlobalCache`.  Every operation receives the filesystem oracle `fs`
(the ambient filesystem of the Go process) so that filesystem access is
observable: an operation that never consults the filesystem is independent
of `fs`. -/

/-- `GlobalCache.Get`: canonical-path lookup. -/
def Get (fs : FS) (c : Option GlobalCache) (pkgPath : String) :
    Option GlobalPackage :=
  match c with
  | none => none
  | some st => lookupA st.pathMap pkgPath

/-- `GlobalCache.GetByURI`: lower-cased file-path lookup piped through the
nil-tolerant `Package()` accessor. -/
def GetByURI (fs : FS) (c : Option GlobalCache) (filename : String) :
    Option Package :=
  match c with
  | none => none
  | some st => packageOf (lookupA st.fileMap (LowerDriver filename))

/-- `GlobalCache.Put`. -/
def Put (fs : FS) (c : Option GlobalCache) (pkg : Package) :
    Option GlobalCache :=
  match c with
  | none => none
  | some st => some (putC fs st pkg)

/-- `GlobalCache.Delete`. -/
def Delete (fs : FS) (c : Option GlobalCache) (id : String) :
    Option GlobalCache :=
  match c with
  | none => none
  | some st => some (deleteC st id)

/-- `GlobalCache.clean` behind the nil guard. -/
def Clean (fs : FS) (c : Option GlobalCache) (idList : List String) :
    Option GlobalCache :=
  match c with
  | none => none
  | some st => some (cleanC st idList)

/-- `GlobalCache.Add`: recursive ingestion from the root node. Exhausting
`fuel` (the Go stack bound) leaves no final state; that outcome is embedded
as the unchanged state, and claim C2 treats it through `recusiveAdd`
directly. -/
def Add (fs : FS) (c : Option GlobalCache) (g : PkgsGraph) (root : PkgsNode)
    (fuel : Nat) : Option GlobalCache :=
  match c with
  | none => none
  | some st =>
    match recusiveAdd fuel fs g st root with
    | none => some st
    | some (st', _) => some st'

/-- The lock methods (`Lock`/`Unlock`/`RLock`/`RUnlock`) only guard the
mutex after the nil check; sequentially they leave the cache unchanged. -/
def LockOp (c : Option GlobalCache) : Option GlobalCache :=
  match c with
  | none => none
  | some st => some st

/-! ## Walk

Go string primitives, embedded over the character list of the string
(UTF-8 byte order coincides with code-point order, so Go's byte-wise
`HasPrefix`, `Contains` and `<=` agree with these). -/

/-- `strings.HasPrefix(s, p)`. -/
def hasPrefix (p s : String) : Bool := p.data.isPrefixOf s.data

/-- `strings.Contains(s, ".")` for the single-character separator. -/
def containsChar (s : String) (c : Char) : Bool := s.data.contains c

/-- Go's `<=` on strings (byte-wise lexicographic). -/
def lexLe : List Char → List Char → Bool
  | [], _ => true
  | _ :: _, [] => false
  | a :: as, b :: bs => if a = b then lexLe as bs else decide (a < b)

/-- The `getRank` closure inside `Walk`: index of the first prefix of
`ranks` the id starts with; otherwise `len(ranks)` when the id contains a
dot, else `len(ranks)+1`. -/
def getRank (ranks : List String) (id : String) : Nat :=
  match ranks.findIdx? (fun r => hasPrefix r id) with
  | some i => i
  | none => if containsChar id '.' then ranks.length else ranks.length + 1

/-- The ordering used by `sort.Slice` in `Walk`: ascending rank, ties broken
by ascending lexicographic id. -/
def walkRel (ranks : List String) (a b : String) : Prop :=
  getRank ranks a < getRank ranks b ∨
    (getRank ranks a = getRank ranks b ∧ lexLe a.data b.data = true)

instance walkRelDecidable (ranks : List String) :
    DecidableRel (walkRel ranks) := fun a b => by
  unfold walkRel; infer_instance

/-- The sorted id list `Walk` traverses: the keys of the id index ordered by
`walkRel` (the comparator is total, so the sort's result does not depend on
the map's iteration order). -/
def walkIds (st : GlobalCache) (ranks : List String) : List String :=
  List.insertionSort (walkRel ranks) (st.idMap.map Prod.fst)

/-- `GlobalCache.walk`: visit each id's unit in order, returning the first
error the visit function produces (`none` = nil error). -/
def walkC (st : GlobalCache) (idList : List String)
    (walkFunc : Option Package → Option String) : Option String :=
  match idList with
  | [] => none
  | id :: rest =>
    match walkFunc (getC st id) with
    | some e => some e
    | none => walkC st rest walkFunc

/-- `GlobalCache.Walk`. -/
def Walk (fs : FS) (c : Option GlobalCache)
    (walkFunc : Option Package → Option String) (ranks : List String) :
    Option String :=
  match c with
  | none => none
  | some st => walkC st (walkIds st ranks) walkFunc

/-! ## Dispatcher lifecycle (`handler.go`, `handler_common.go`)

`LangHandler` lifecycle state: `init` models `h.init != nil`, `shutdown`
models `HandlerCommon.shutdown`. Errors carry the Go error values; leaf
handler bodies (hover, definition, ...) are not under scrutiny here and are
supplied as a parameter mapping the method to an outcome. -/

structure HandlerState : Type where
  init : Bool
  shutdown : Bool

inductive HandleErr : Type where
  | mustBeInitialized
  | alreadyInitialized
  | shuttingDown
  | alreadyShutdown
  | invalidParams
  | methodNotFound (m : String)
  | internal (m : String)
  | handlerErr (e : String)
  deriving DecidableEq

/-- The outcome of one leaf handler invocation: success, an ordinary error,
or an unexpected runtime fault (a Go panic). -/
inductive Outcome : Type where
  | ok
  | err (e : String)
  | fault (msg : String)

/-- `HandlerCommon.ShutDown`: marks the server shut down; returns the new
state and whether the `AlreadyShutdown` condition was logged (it is logged,
never returned). -/
def ShutDown (st : HandlerState) : HandlerState × Bool :=
  ({ st with shutdown := true }, st.shutdown)

/-- `HandlerCommon.CheckReady`: an error iff the server was shut down. -/
def CheckReady (st : HandlerState) : Option HandleErr :=
  if st.shutdown then some .shuttingDown else none

/-- Result of one `Handle` dispatch: the successor state, the error result
(`none` = success), and whether the transport was told to close. -/
structure HandleResult : Type where
  state : HandlerState
  err : Option HandleErr
  closed : Bool

/-- The methods of the dispatch switch that unmarshal parameters (a `nil`
`req.Params` fails with `InvalidParams` before the handler runs). -/
def queryMethods : List String :=
  ["textDocument/hover", "textDocument/definition",
   "textDocument/typeDefinition", "textDocument/xdefinition",
   "textDocument/completion", "textDocument/references",
   "textDocument/implementation", "textDocument/documentSymbol",
   "textDocument/signatureHelp", "textDocument/formatting",
   "textDocument/rangeFormatting", "workspace/symbol",
   "workspace/xreferences", "textDocument/rename", "textDocument/codeAction"]

/-- The document-mutation notifications routed to
`handleFileSystemRequest` (no parameter check in the switch). -/
def fsMethods : List String :=
  ["textDocument/didOpen", "textDocument/didChange",
   "textDocument/didClose", "textDocument/didSave"]

/-- Invoking a leaf handler at the dispatch boundary: the deferred
`util.Panicf(recover(), "%v", req.Method)` turns a fault into a normal
error response tagged with the method name. Modelled from the spec for the
tag itself (`util.Panicf` is not under `src/`): "caught at the dispatch
boundary, tagged with the method name that produced it, and converted into
a normal error response". -/
def dispatchLeaf (leaf : String → Outcome) (st : HandlerState) (m : String) :
    HandleResult :=
  match leaf m with
  | .ok => ⟨st, none, false⟩
  | .err e => ⟨st, some (.handlerErr e), false⟩
  | .fault _ => ⟨st, some (.internal m), false⟩

/-- `LangHandler.Handle`: the not-initialized gate, the `CheckReady` gate
(with the `exit` exemption), then the method switch. `hasParams` models
`req.Params != nil`. -/
def Handle (leaf : String → Outcome) (st : HandlerState) (m : String)
    (hasParams : Bool) : HandleResult :=
  if m ≠ "initialize" ∧ st.init = false then
    ⟨st, some .mustBeInitialized, false⟩
  else
    match CheckReady st with
    | some e => if m = "exit" then ⟨st, none, false⟩ else ⟨st, some e, false⟩
    | none =>
      if m = "initialize" then
        if st.init then ⟨st, some .alreadyInitialized, false⟩
        else if hasParams then ⟨{ st with init := true }, none, false⟩
        else ⟨st, some .invalidParams, false⟩
      else if m = "initialized" then ⟨st, none, false⟩
      else if m = "shutdown" then ⟨(ShutDown st).1, none, false⟩
      else if m = "exit" then ⟨st, none, true⟩
      else if m = "$/cancelRequest" then ⟨st, none, false⟩
      else if m ∈ queryMethods then
        if hasParams then dispatchLeaf leaf st m
        else ⟨st, some .invalidParams, false⟩
      else if m ∈ fsMethods then dispatchLeaf leaf st m
      else ⟨st, some (.methodNotFound m), false⟩

/-! ## Invariants and operation sequences (claim C1) -/

/-- The index-relevant signature of a unit: id, canonical path, files. -/
abbrev Sig : Type := String × String × List String

def Package.sig (p : Package) : Sig := (p.id, p.pkgPath, p.files)

def PkgsNode.sig (n : PkgsNode) : Sig := (n.id, n.pkgPath, n.files)

/-- Two signatures clash-free: sharing the canonical path or a (lower-cased)
member file forces the same id. -/
def SigClashFree (u v : Sig) : Prop :=
  (u.2.1 = v.2.1 → u.1 = v.1) ∧
  (∀ f ∈ u.2.2, ∀ g ∈ v.2.2, LowerDriver f = LowerDriver g → u.1 = v.1)

instance (u v : Sig) : Decidable (SigClashFree u v) := by
  unfold SigClashFree; infer_instance

def ClashFreeList (us : List Sig) : Prop :=
  ∀ u ∈ us, ∀ v ∈ us, SigClashFree u v

instance (us : List Sig) : Decidable (ClashFreeList us) := by
  unfold ClashFreeList; infer_instance

/-- One GlobalCache mutation, as issued by callers. -/
inductive CacheOp : Type where
  | opPut (pkg : Package)
  | opDelete (id : String)
  | opClean (ids : List String)
  | opAdd (g : PkgsGraph) (root : PkgsNode) (fuel : Nat)

/-- The signatures an operation can introduce into the cache. -/
def opSigs : CacheOp → List Sig
  | .opPut pkg => [pkg.sig]
  | .opDelete _ => []
  | .opClean _ => []
  | .opAdd g root _ => root.sig :: g.map PkgsNode.sig

def opsSigs (ops : List CacheOp) : List Sig := ops.flatMap opSigs

/-- Execute one mutation on the (non-nil) cache state; an `Add` that runs
out of stack is cut off with the state it had (claim C2 treats that case). -/
def execOp (fs : FS) (st : GlobalCache) : CacheOp → GlobalCache
  | .opPut pkg => putC fs st pkg
  | .opDelete i => deleteC st i
  | .opClean ids => cleanC st ids
  | .opAdd g root fuel =>
    match recusiveAdd fuel fs g st root with
    | none => st
    | some (st', _) => st'

def execOps (fs : FS) (ops : List CacheOp) (st : GlobalCache) : GlobalCache :=
  ops.foldl (execOp fs) st

/-- Three-index consistency: a unit stored in the cache is reachable through
all three indices, and every path/file entry leads back to the id index. -/
structure Consistent (st : GlobalCache) : Prop where
  idOk : ∀ i p, lookupA st.idMap i = some p → p.pkg.id = i
  idPath : ∀ i p, lookupA st.idMap i = some p →
    lookupA st.pathMap p.pkg.pkgPath = some p
  idFile : ∀ i p, lookupA st.idMap i = some p →
    ∀ f ∈ p.pkg.files, lookupA st.fileMap (LowerDriver f) = some p
  pathId : ∀ path p, lookupA st.pathMap path = some p →
    p.pkg.pkgPath = path ∧ lookupA st.idMap p.pkg.id = some p
  fileId : ∀ k p, lookupA st.fileMap k = some p →
    (∃ f ∈ p.pkg.files, LowerDriver f = k) ∧ lookupA st.idMap p.pkg.id = some p

/-- Every cached unit's signature belongs to the given universe. -/
def CachedSigsIn (st : GlobalCache) (us : List Sig) : Prop :=
  ∀ i p, lookupA st.idMap i = some p → p.pkg.sig ∈ us

/-- The invariant carried across operation sequences: three-index
consistency plus containment of all cached signatures in the universe of
signatures the sequence may ingest. -/
def CacheInv (st : GlobalCache) (us : List Sig) : Prop :=
  Consistent st ∧ CachedSigsIn st us

/-! ## Graph shape predicates (claim C2) -/

/-- Every import id of every node resolves in the graph. -/
def WFGraph (g : PkgsGraph) : Prop :=
  ∀ n ∈ g, ∀ cid ∈ n.imports, (findNode g cid).isSome = true

instance (g : PkgsGraph) : Decidable (WFGraph g) := by
  unfold WFGraph; infer_instance

/-- `rk` witnesses acyclicity: every edge strictly decreases the rank. -/
def RankedBy (g : PkgsGraph) (rk : String → Nat) : Prop :=
  ∀ n ∈ g, ∀ cid ∈ n.imports, rk cid < rk n.id

instance (g : PkgsGraph) (rk : String → Nat) : Decidable (RankedBy g rk) := by
  unfold RankedBy; infer_instance

/-- `Add` on this input diverges: no stack bound suffices. -/
def AddDiverges (fs : FS) (g : PkgsGraph) (root : PkgsNode) : Prop :=
  ∀ fuel, recusiveAdd fuel fs g NewCache root = none

def UniqKeys {α : Type} (m : AList α) : Prop := (m.map Prod.fst).Nodup

/-! ## Concrete fixtures used by counterexamples and witnesses -/

def fs0 : FS := fun _ => none

def fs5 : FS := fun _ => some 5

/-- Agrees with `fs0` on `"a.go"` (the file of `pkgA`) and differs
everywhere else. -/
def fsAlt : FS := fun p => if p = "a.go" then none else some 9

def pkgA : Package := .mk "a" "pkg/a" "a" ["a.go"] []

/-- Same canonical path as `pkgA`, different id. -/
def pkgB : Package := .mk "b" "pkg/a" "b" ["b.go"] []

def pkgSrc : Package := .mk "s" "src/s" "s" ["/Src/a.go"] []

def pkFoo : Package := .mk "myapp/foo" "myapp/foo" "foo" [] []

def pkBar : Package := .mk "myapp/bar" "myapp/bar" "bar" [] []

def pkGit : Package := .mk "github.com/x/y" "github.com/x/y" "y" [] []

def pkFmt : Package := .mk "fmt" "fmt" "fmt" [] []

/-- The cache of spec §8.4: ids `myapp/foo`, `myapp/bar`, `github.com/x/y`,
`fmt`. -/
def cache4 : GlobalCache :=
  putC fs0 (putC fs0 (putC fs0 (putC fs0 NewCache pkFoo) pkBar) pkGit) pkFmt

/-- A visit function producing its first error at `myapp/foo`. -/
def walkF0 : Option Package → Option String
  | none => some "nil-package"
  | some p => if p.id = "myapp/foo" then some "boom" else none

/-- The cyclic graph of spec §8.1: C depends on D, D depends on C. -/
def nodeC : PkgsNode := ⟨"C", "C", "C", [], ["D"]⟩

def nodeD : PkgsNode := ⟨"D", "D", "D", [], ["C"]⟩

def cycleG : PkgsGraph := [nodeC, nodeD]

/-- A diamond-shaped acyclic graph: a → b, a → c, b → d, c → d. -/
def nodeDiaD : PkgsNode := ⟨"d", "p/d", "d", [], []⟩

def nodeDiaB : PkgsNode := ⟨"b", "p/b", "b", [], ["d"]⟩

def nodeDiaC : PkgsNode := ⟨"c", "p/c", "c", [], ["d"]⟩

def nodeDiaA : PkgsNode := ⟨"a", "p/a", "a", [], ["b", "c"]⟩

def diamondG : PkgsGraph := [nodeDiaA, nodeDiaB, nodeDiaC, nodeDiaD]

def diamondRk : String → Nat :=
  fun s => if s = "d" then 0 else if s = "a" then 2 else 1

def leafOk : String → Outcome := fun _ => .ok

def leafFault : String → Outcome :=
  fun m => if m = "textDocument/hover" then .fault "boom" else .ok

/-- "Equals up to letter case". -/
def sameUpToCase (f q : String) : Prop :=
  f.data.map Char.toLower = q.data.map Char.toLower

instance (f q : String) : Decidable (sameUpToCase f q) := by
  unfold sameUpToCase; infer_instance

/-! ## Association-list lemmas -/

theorem lookupA_eraseA {α : Type} (m : AList α) (k key : String) :
    lookupA (eraseA m k) key = if k = key then none else lookupA m key := by
  induction m with
  | nil => simp [eraseA, lookupA]
  | cons hd tl ih =>
    obtain ⟨a, b⟩ := hd
    by_cases hak : a = k <;> by_cases hkey : k = key <;>
      by_cases hakey : a = key <;>
      simp_all [eraseA, lookupA]

theorem lookupA_insertA {α : Type} (m : AList α) (k : String) (v : α)
    (key : String) :
    lookupA (insertA m k v) key = if k = key then some v else lookupA m key := by
  by_cases h : k = key <;> simp [insertA, lookupA, lookupA_eraseA, h]

theorem lookupA_foldl_insertA (files : List String) (p : GlobalPackage)
    (m : AList GlobalPackage) (key : String) :
    lookupA (files.foldl (fun m f => insertA m (LowerDriver f) p) m) key =
      if key ∈ files.map LowerDriver then some p else lookupA m key := by
  induction files generalizing m with
  | nil => simp
  | cons f rest ih =>
    simp only [List.foldl_cons, ih, List.map_cons, List.mem_cons]
    by_cases h : key = LowerDriver f <;>
      by_cases h2 : key ∈ rest.map LowerDriver <;>
      simp [h, h2, lookupA_insertA, eq_comm]

theorem lookupA_foldl_eraseA (files : List String)
    (m : AList GlobalPackage) (key : String) :
    lookupA (files.foldl (fun m f => eraseA m (LowerDriver f)) m) key =
      if key ∈ files.map LowerDriver then none else lookupA m key := by
  induction files generalizing m with
  | nil => simp
  | cons f rest ih =>
    simp only [List.foldl_cons, ih, List.map_cons, List.mem_cons]
    by_cases h : key = LowerDriver f <;>
      by_cases h2 : key ∈ rest.map LowerDriver <;>
      simp [h, h2, lookupA_eraseA, eq_comm]

theorem foldl_deleteC_nil : ∀ l : List String, l.foldl deleteC NewCache = NewCache
  | [] => rfl
  | _ :: l => foldl_deleteC_nil l

/-! ## Claim C10 -/

/-- C10: on a non-nil cache, a file path (or id) with no index entry makes
`GetByURI` (and the internal `get` used by `Walk`) return absent rather than
fault, because the lookup flows through the nil-tolerant
`GlobalPackage.Package()`; `ModTime()` on an absent entry is the zero time. -/
theorem C10_absent_lookups_safe (fs : FS) (st : GlobalCache) (q id : String)
    (hq : lookupA st.fileMap (LowerDriver q) = none)
    (hid : lookupA st.idMap id = none) :
    GetByURI fs (some st) q = none ∧ getC st id = none ∧
    packageOf none = none ∧ modTimeOf none = 0 := by
  refine ⟨?_, ?_, rfl, rfl⟩
  · simp [GetByURI, hq, packageOf]
  · simp [getC, hid, packageOf]

theorem C10_witness :
    lookupA (putC fs0 NewCache pkgA).fileMap (LowerDriver "zz.go") = none ∧
    lookupA (putC fs0 NewCache pkgA).idMap "zz" = none ∧
    (GetByURI fs0 (some (putC fs0 NewCache pkgA)) "zz.go" = none ∧
     getC (putC fs0 NewCache pkgA) "zz" = none ∧
     packageOf none = none ∧ modTimeOf none = 0) :=
  ⟨rfl, rfl, C10_absent_lookups_safe fs0 (putC fs0 NewCache pkgA) "zz.go" "zz" rfl rfl⟩

/-! ## Claim C6 -/

/-- C6: `GetByFile` is case-insensitive: a unit ingested with member file
`f` is returned by `GetByURI` for every query path equal to `f` up to
letter case, because insertion and lookup apply the same lower-casing
normalization (`util.LowerDriver`, modelled from the spec) to the path. -/
theorem C6_get_by_file_case_insensitive (fs : FS) (c : GlobalCache)
    (pkg : Package) (f q : String)
    (hf : f ∈ pkg.files) (hcase : sameUpToCase f q) :
    GetByURI fs (Put fs (some c) pkg) q = some pkg := by
  have hld : LowerDriver f = LowerDriver q := congrArg String.mk hcase
  have hmem : LowerDriver q ∈ pkg.files.map LowerDriver :=
    hld ▸ List.mem_map_of_mem LowerDriver hf
  simp [Put, GetByURI, putC, lookupA_foldl_insertA, hmem, packageOf]

theorem C6_witness :
    "/Src/a.go" ∈ pkgSrc.files ∧ sameUpToCase "/Src/a.go" "/src/A.GO" ∧
    GetByURI fs0 (Put fs0 (some NewCache) pkgSrc) "/src/A.GO" = some pkgSrc :=
  ⟨by decide, by decide,
   C6_get_by_file_case_insensitive fs0 NewCache pkgSrc "/Src/a.go" "/src/A.GO"
     (by decide) (by decide)⟩

/-! ## Claim C7 -/

/-- C7 counterexample: `Put` (hence `Add`) does perform a filesystem access:
`put` records `getPackageModTime`, which stats the primary member file, so
the resulting cache observably depends on the filesystem state. -/
theorem C7_counterexample_stat :
    modTimeOf (Get fs0 (Put fs0 (some NewCache) pkgA) "pkg/a") = 0 ∧
    modTimeOf (Get fs5 (Put fs5 (some NewCache) pkgA) "pkg/a") = 5 ∧
    Put fs0 (some NewCache) pkgA ≠ Put fs5 (some NewCache) pkgA := by
  refine ⟨rfl, rfl, fun h => ?_⟩
  have h2 := congrArg (fun c => modTimeOf (Get fs0 c "pkg/a")) h
  exact absurd (show (0 : Nat) = 5 from h2) (by decide)

theorem getPackageModTime_head {fs fs' : FS} {pkg : Package}
    (hhead : ∀ x, pkg.files.head? = some x → fs x = fs' x) :
    getPackageModTime fs (some pkg) = getPackageModTime fs' (some pkg) := by
  cases pkg with
  | mk i pp nm fls im =>
    cases fls with
    | nil => rfl
    | cons x xs =>
      have hx : fs x = fs' x := hhead x rfl
      show (match fs x with | none => 0 | some t => t) =
        (match fs' x with | none => 0 | some t => t)
      rw [hx]

/-- C7 amended: the lookups and removals (`Get`, `GetByURI`, `Delete`,
`Clean`, `Walk`) never consult the filesystem — their results are
independent of the filesystem oracle — while `Put`/`Add` read exactly the
modification time of the unit's primary member file at ingestion. -/
theorem C7_amended_fs_isolation (fs fs' : FS) (c : Option GlobalCache)
    (path file id : String) (ids : List String)
    (f : Option Package → Option String) (ranks : List String) (pkg : Package)
    (hhead : ∀ x, pkg.files.head? = some x → fs x = fs' x) :
    Get fs c path = Get fs' c path ∧
    GetByURI fs c file = GetByURI fs' c file ∧
    Delete fs c id = Delete fs' c id ∧
    Clean fs c ids = Clean fs' c ids ∧
    Walk fs c f ranks = Walk fs' c f ranks ∧
    Put fs c pkg = Put fs' c pkg := by
  refine ⟨rfl, rfl, rfl, rfl, rfl, ?_⟩
  cases c with
  | none => rfl
  | some st =>
    simp only [Put, Option.some.injEq]
    unfold putC
    rw [getPackageModTime_head hhead]

theorem C7_witness :
    (∀ x, pkgA.files.head? = some x → fs0 x = fsAlt x) ∧
    Put fs0 (some NewCache) pkgA = Put fsAlt (some NewCache) pkgA :=
  ⟨fun x hx => by
      have h := Option.some.inj hx
      subst h; rfl,
   (C7_amended_fs_isolation fs0 fsAlt (some NewCache) "" "" "" [] (fun _ => none)
      [] pkgA (fun x hx => by
        have h := Option.some.inj hx
        subst h; rfl)).2.2.2.2.2⟩

/-! ## Claim C8 -/

/-- C8 amended: on a nil cache every operation is a safe no-op with the
absent/nil result; on an empty constructed cache the lookups return absent,
`Walk` returns no error, and `Delete`/`Clean` leave it unchanged — but
`Put` (and `Add`) on an empty cache perform their normal insertion, which
is not a no-op. -/
theorem C8_amended_nil_empty (fs : FS) (pkg : Package) (id path file : String)
    (ids : List String) (g : PkgsGraph) (root : PkgsNode) (fuel : Nat)
    (f : Option Package → Option String) (ranks : List String) :
    Get fs none path = none ∧ GetByURI fs none file = none ∧
    Put fs none pkg = none ∧ Delete fs none id = none ∧
    Clean fs none ids = none ∧ Add fs none g root fuel = none ∧
    Walk fs none f ranks = none ∧ LockOp none = none ∧
    Get fs (some NewCache) path = none ∧
    GetByURI fs (some NewCache) file = none ∧
    getC NewCache id = none ∧
    Walk fs (some NewCache) f ranks = none ∧
    Delete fs (some NewCache) id = some NewCache ∧
    Clean fs (some NewCache) ids = some NewCache := by
  refine ⟨rfl, rfl, rfl, rfl, rfl, rfl, rfl, rfl, rfl, rfl, rfl, rfl, rfl, ?_⟩
  cases ids with
  | nil => rfl
  | cons a l =>
    show some ((a :: l).foldl deleteC NewCache) = some NewCache
    rw [foldl_deleteC_nil]

/-- C8 counterexample: `Put` invoked on an empty (constructed) cache is not
a no-op — the unit becomes observable through `Get` — so "mutations do
nothing" fails for the empty cache. -/
theorem C8_counterexample_put_not_noop :
    (Get fs0 (Put fs0 (some NewCache) pkgA) "pkg/a").map (fun p => p.pkg.id) =
      some "a" ∧
    Put fs0 (some NewCache) pkgA ≠ some NewCache := by
  refine ⟨rfl, fun h => ?_⟩
  have h2 := congrArg (fun c => (Get fs0 c "pkg/a").map (fun p => p.pkg.id)) h
  exact Option.noConfusion (show (some "a" : Option String) = none from h2)

/-! ## Claim C4 -/

/-- C4 counterexample: dispatching `exit` while Uninitialized is rejected
with the must-be-initialized error, and dispatching it while ShuttingDown
succeeds but does not instruct the transport to close (the `conn.Close()`
branch is only reached when `CheckReady` passes). -/
theorem C4_counterexample_exit :
    (Handle leafOk ⟨false, false⟩ "exit" true).err = some .mustBeInitialized ∧
    (Handle leafOk ⟨true, true⟩ "exit" true).err = none ∧
    (Handle leafOk ⟨true, true⟩ "exit" true).closed = false := by
  decide

/-- C4 amended: once the server is initialized, `exit` always returns a
non-error result and leaves the lifecycle state unchanged, but it instructs
the transport to close only when dispatched before shutdown; while
Uninitialized, `exit` is rejected with the must-be-initialized error. -/
theorem C4_amended_exit (leaf : String → Outcome) (st : HandlerState)
    (hp : Bool) :
    (Handle leaf st "exit" hp).err =
      (if st.init then none else some .mustBeInitialized) ∧
    (Handle leaf st "exit" hp).closed = (st.init && !st.shutdown) ∧
    (Handle leaf st "exit" hp).state = st := by
  obtain ⟨i, s⟩ := st
  cases i <;> cases s <;> simp +decide [Handle, CheckReady]

/-! ## Claim C5 -/

/-- C5 counterexample: a second `shutdown` request after a first successful
one is not answered with a non-error result: `CheckReady` rejects it with
the ShuttingDown error before `ShutDown` is reached. -/
theorem C5_counterexample_shutdown :
    (Handle leafOk ⟨true, false⟩ "shutdown" true).err = none ∧
    (Handle leafOk (Handle leafOk ⟨true, false⟩ "shutdown" true).state
        "shutdown" true).err = some .shuttingDown := by
  decide

/-- C5 amended: a second dispatched `shutdown` is rejected with the
ShuttingDown error (never with AlreadyShutdown, which is only logged);
the `ShutDown` method itself is idempotent: a repeated direct call logs the
AlreadyShutdown condition and leaves the state shut down. -/
theorem C5_amended_shutdown (leaf : String → Outcome) (st : HandlerState)
    (hp : Bool) :
    (Handle leaf st "shutdown" hp).err =
      (if st.init = false then some .mustBeInitialized
       else if st.shutdown then some .shuttingDown else none) ∧
    (Handle leaf st "shutdown" hp).err ≠ some .alreadyShutdown ∧
    ShutDown (ShutDown st).1 = ((ShutDown st).1, true) := by
  obtain ⟨i, s⟩ := st
  cases i <;> cases s <;> simp +decide [Handle, CheckReady, ShutDown]

/-! ## Claim C9 -/

theorem queryMethods_not_builtin : ∀ m ∈ queryMethods,
    m ≠ "initialize" ∧ m ≠ "initialized" ∧ m ≠ "shutdown" ∧ m ≠ "exit" ∧
    m ≠ "$/cancelRequest" := by decide

theorem fsMethods_not_builtin : ∀ m ∈ fsMethods,
    m ∉ queryMethods ∧ m ≠ "initialize" ∧ m ≠ "initialized" ∧
    m ≠ "shutdown" ∧ m ≠ "exit" ∧ m ≠ "$/cancelRequest" := by decide

theorem handle_dispatch_eq (leaf : String → Outcome) (st : HandlerState)
    (m : String) (h1 : st.init = true) (h2 : st.shutdown = false)
    (hm : m ∈ queryMethods ∨ m ∈ fsMethods) :
    Handle leaf st m true = dispatchLeaf leaf st m := by
  have hne : m ≠ "initialize" ∧ m ≠ "initialized" ∧ m ≠ "shutdown" ∧
      m ≠ "exit" ∧ m ≠ "$/cancelRequest" := by
    rcases hm with h | h
    · exact queryMethods_not_builtin m h
    · exact (fsMethods_not_builtin m h).2
  obtain ⟨h3, h4, h5, h6, h7⟩ := hne
  rcases hm with h | h
  · simp [Handle, CheckReady, h1, h2, h3, h4, h5, h6, h7, h]
  · have h8 : m ∉ queryMethods := (fsMethods_not_builtin m h).1
    simp [Handle, CheckReady, h1, h2, h3, h4, h5, h6, h7, h8, h]

/-- C9: a leaf handler that raises an unexpected runtime fault is caught at
the dispatch boundary: the dispatcher returns a normal error response
tagged with the originating method name, the lifecycle state is untouched,
and any subsequent request is handled exactly as it would have been without
the fault. -/
theorem C9_fault_isolation (leaf : String → Outcome) (st : HandlerState)
    (m msg m2 : String) (hp2 : Bool)
    (hm : m ∈ queryMethods ∨ m ∈ fsMethods)
    (h1 : st.init = true) (h2 : st.shutdown = false)
    (hf : leaf m = .fault msg) :
    (Handle leaf st m true).err = some (.internal m) ∧
    (Handle leaf st m true).state = st ∧
    Handle leaf (Handle leaf st m true).state m2 hp2 =
      Handle leaf st m2 hp2 := by
  have hd := handle_dispatch_eq leaf st m h1 h2 hm
  rw [hd]
  simp [dispatchLeaf, hf]

theorem C9_witness :
    ("textDocument/hover" ∈ queryMethods ∨
      "textDocument/hover" ∈ fsMethods) ∧
    leafFault "textDocument/hover" = .fault "boom" ∧
    ((Handle leafFault ⟨true, false⟩ "textDocument/hover" true).err =
        some (.internal "textDocument/hover") ∧
     (Handle leafFault ⟨true, false⟩ "textDocument/hover" true).state =
        ⟨true, false⟩ ∧
     Handle leafFault
        (Handle leafFault ⟨true, false⟩ "textDocument/hover" true).state
        "initialized" true =
      Handle leafFault ⟨true, false⟩ "initialized" true) :=
  ⟨Or.inl (by decide), rfl,
   C9_fault_isolation leafFault ⟨true, false⟩ "textDocument/hover" "boom"
     "initialized" true (Or.inl (by decide)) rfl rfl rfl⟩

/-! ## Claim C3 -/

theorem lexLe_total : ∀ as bs : List Char,
    lexLe as bs = true ∨ lexLe bs as = true := by
  intro as
  induction as with
  | nil => intro bs; left; rfl
  | cons a as ih =>
    intro bs
    cases bs with
    | nil => right; rfl
    | cons b bs =>
      by_cases hab : a = b
      · subst hab
        rcases ih bs with h | h
        · left; simpa [lexLe] using h
        · right; simpa [lexLe] using h
      · rcases lt_trichotomy a b with h | h | h
        · left; simp [lexLe, hab, h]
        · exact absurd h hab
        · right; simp [lexLe, Ne.symm hab, h]

theorem lexLe_trans : ∀ as bs cs : List Char,
    lexLe as bs = true → lexLe bs cs = true → lexLe as cs = true := by
  intro as
  induction as with
  | nil => intro bs cs _ _; rfl
  | cons a as ih =>
    intro bs cs h1 h2
    cases bs with
    | nil => simp [lexLe] at h1
    | cons b bs =>
      cases cs with
      | nil => simp [lexLe] at h2
      | cons c cs =>
        by_cases hab : a = b <;> by_cases hbc : b = c
        · subst hab; subst hbc
          simp only [lexLe, if_pos rfl] at h1 h2 ⊢
          exact ih bs cs h1 h2
        · subst hab
          simp only [lexLe, if_pos rfl] at h1
          simp only [lexLe, if_neg hbc, decide_eq_true_eq] at h2
          simp [lexLe, ne_of_lt h2, h2]
        · subst hbc
          simp only [lexLe, if_neg hab, decide_eq_true_eq] at h1
          simp [lexLe, hab, h1]
        · simp only [lexLe, if_neg hab, decide_eq_true_eq] at h1
          simp only [lexLe, if_neg hbc, decide_eq_true_eq] at h2
          have hac := lt_trans h1 h2
          simp [lexLe, ne_of_lt hac, hac]

theorem walkRel_total (ranks : List String) :
    ∀ a b : String, walkRel ranks a b ∨ walkRel ranks b a := by
  intro a b
  rcases lt_trichotomy (getRank ranks a) (getRank ranks b) with h | h | h
  · exact Or.inl (Or.inl h)
  · rcases lexLe_total a.data b.data with hl | hl
    · exact Or.inl (Or.inr ⟨h, hl⟩)
    · exact Or.inr (Or.inr ⟨h.symm, hl⟩)
  · exact Or.inr (Or.inl h)

theorem walkRel_trans (ranks : List String) : ∀ a b c : String,
    walkRel ranks a b → walkRel ranks b c → walkRel ranks a c := by
  intro a b c h1 h2
  rcases h1 with h1 | ⟨e1, l1⟩ <;> rcases h2 with h2 | ⟨e2, l2⟩
  · exact Or.inl (lt_trans h1 h2)
  · exact Or.inl (h1.trans_eq e2)
  · exact Or.inl (e1.trans_lt h2)
  · exact Or.inr ⟨e1.trans e2, lexLe_trans a.data b.data c.data l1 l2⟩

theorem walkC_skip_none (st : GlobalCache)
    (f : Option Package → Option String) (xs ys : List String)
    (hxs : ∀ x ∈ xs, f (getC st x) = none) :
    walkC st (xs ++ ys) f = walkC st ys f := by
  induction xs with
  | nil => rfl
  | cons a xs ih =>
    have ha := hxs a (List.mem_cons_self a xs)
    simp only [List.cons_append, walkC, ha]
    exact ih (fun x hx => hxs x (List.mem_cons_of_mem a hx))

theorem walkC_all_none (st : GlobalCache)
    (f : Option Package → Option String) (l : List String)
    (hl : ∀ x ∈ l, f (getC st x) = none) :
    walkC st l f = none := by
  induction l with
  | nil => rfl
  | cons a l ih =>
    have ha := hl a (List.mem_cons_self a l)
    simp only [walkC, ha]
    exact ih (fun x hx => hl x (List.mem_cons_of_mem a hx))

/-- C3: `Walk` visits each cached unit exactly once (the traversed id list
is a permutation of the id-index keys), in ascending `getRank` order with
ties broken by ascending lexicographic id; it returns the first error the
visit function produces, stopping early, and `none` when no visit errs.
On the spec's concrete example the visit order is exactly
`myapp/bar`, `myapp/foo`, `github.com/x/y`, `fmt`. -/
theorem C3_walk_order (fs : FS) (st : GlobalCache)
    (f : Option Package → Option String) (ranks : List String) :
    (walkIds st ranks).Perm (st.idMap.map Prod.fst) ∧
    (walkIds st ranks).Pairwise (walkRel ranks) ∧
    Walk fs (some st) f ranks = walkC st (walkIds st ranks) f ∧
    (∀ xs y ys e, walkIds st ranks = xs ++ y :: ys →
      (∀ x ∈ xs, f (getC st x) = none) → f (getC st y) = some e →
      Walk fs (some st) f ranks = some e) ∧
    ((∀ x ∈ walkIds st ranks, f (getC st x) = none) →
      Walk fs (some st) f ranks = none) ∧
    walkIds cache4 ["myapp/"] =
      ["myapp/bar", "myapp/foo", "github.com/x/y", "fmt"] := by
  haveI : IsTotal String (walkRel ranks) := ⟨walkRel_total ranks⟩
  haveI : IsTrans String (walkRel ranks) := ⟨walkRel_trans ranks⟩
  refine ⟨List.perm_insertionSort (walkRel ranks) _,
    List.sorted_insertionSort (walkRel ranks) _, rfl, ?_, ?_, by decide⟩
  · intro xs y ys e hsplit hxs hy
    show walkC st (walkIds st ranks) f = some e
    rw [hsplit, walkC_skip_none st f xs (y :: ys) hxs]
    simp [walkC, hy]
  · intro hall
    exact walkC_all_none st f (walkIds st ranks) hall

theorem C3_witness :
    Walk fs0 (some cache4) walkF0 ["myapp/"] = some "boom" ∧
    walkIds cache4 ["myapp/"] =
      ["myapp/bar", "myapp/foo", "github.com/x/y", "fmt"] :=
  ⟨(C3_walk_order fs0 cache4 walkF0 ["myapp/"]).2.2.2.1
      ["myapp/bar"] "myapp/foo" ["github.com/x/y", "fmt"] "boom"
      (by decide) (by decide) (by decide),
   (C3_walk_order fs0 cache4 walkF0 ["myapp/"]).2.2.2.2.2⟩

/-! ## Stepping equations for the fuel-indexed ingestion -/

theorem recusiveAdd_zero (fs : FS) (g : PkgsGraph) (st : GlobalCache)
    (node : PkgsNode) : recusiveAdd 0 fs g st node = none := by
  simp only [recusiveAdd]

theorem recusiveAdd_succ (f : Nat) (fs : FS) (g : PkgsGraph)
    (st : GlobalCache) (node : PkgsNode) :
    recusiveAdd (f + 1) fs g st node =
      match lookupA st.idMap node.id with
      | some p => some (st, p.pkg)
      | none =>
        match addImports f fs g st node.imports [] with
        | none => none
        | some (st', acc) =>
          some (putC fs st' (createP node acc), createP node acc) := by
  simp only [recusiveAdd]

theorem addImports_nil_eq (f : Nat) (fs : FS) (g : PkgsGraph)
    (st : GlobalCache) (acc : List (String × Package)) :
    addImports f fs g st [] acc = some (st, acc) := by
  simp only [addImports]

theorem addImports_cons_eq (f : Nat) (fs : FS) (g : PkgsGraph)
    (st : GlobalCache) (c : String) (rest : List String)
    (acc : List (String × Package)) :
    addImports f fs g st (c :: rest) acc =
      match findNode g c with
      | none => none
      | some cnode =>
        match recusiveAdd f fs g st cnode with
        | none => none
        | some (st', cpkg) =>
          addImports f fs g st' rest ((cnode.pkgPath, cpkg) :: acc) := by
  simp only [addImports]

/-! ## Unique keys -/

theorem keys_eraseA_sublist {α : Type} (m : AList α) (k : String) :
    ((eraseA m k).map Prod.fst).Sublist (m.map Prod.fst) := by
  induction m with
  | nil => simp [eraseA]
  | cons hd tl ih =>
    obtain ⟨a, b⟩ := hd
    by_cases h : a = k
    · simp only [eraseA, if_pos h, List.map_cons]
      exact ih.cons a
    · simp only [eraseA, if_neg h, List.map_cons]
      exact ih.cons₂ a

theorem not_mem_keys_eraseA {α : Type} (m : AList α) (k : String) :
    k ∉ (eraseA m k).map Prod.fst := by
  induction m with
  | nil => simp [eraseA]
  | cons hd tl ih =>
    obtain ⟨a, b⟩ := hd
    by_cases h : a = k
    · simpa [eraseA, if_pos h] using ih
    · simp only [eraseA, if_neg h, List.map_cons, List.mem_cons]
      rintro (rfl | hmem)
      · exact h rfl
      · exact ih hmem

theorem uniq_eraseA {α : Type} {m : AList α} (k : String)
    (h : UniqKeys m) : UniqKeys (eraseA m k) :=
  List.Nodup.sublist (keys_eraseA_sublist m k) h

theorem uniq_insertA {α : Type} {m : AList α} (k : String) (v : α)
    (h : UniqKeys m) : UniqKeys (insertA m k v) := by
  show ((k, v) :: eraseA m k).map Prod.fst |>.Nodup
  rw [List.map_cons, List.nodup_cons]
  exact ⟨not_mem_keys_eraseA m k, uniq_eraseA k h⟩

theorem uniq_deleteC {st : GlobalCache} (id : String)
    (h : UniqKeys st.idMap) : UniqKeys (deleteC st id).idMap := by
  unfold deleteC
  cases lookupA st.idMap id with
  | none => exact h
  | some p => exact uniq_eraseA id h

theorem uniq_putC (fs : FS) {st : GlobalCache} (pkg : Package)
    (h : UniqKeys st.idMap) : UniqKeys (putC fs st pkg).idMap :=
  uniq_insertA pkg.id _ (uniq_deleteC pkg.id h)

/-! ## Claim C2 -/

theorem cycle_diverges_aux : ∀ fuel,
    recusiveAdd fuel fs0 cycleG NewCache nodeC = none ∧
    recusiveAdd fuel fs0 cycleG NewCache nodeD = none := by
  intro fuel
  induction fuel with
  | zero => exact ⟨recusiveAdd_zero _ _ _ _, recusiveAdd_zero _ _ _ _⟩
  | succ n ih =>
    constructor
    · rw [recusiveAdd_succ]
      have h1 : lookupA NewCache.idMap nodeC.id = none := rfl
      rw [h1]
      have h2 : addImports n fs0 cycleG NewCache nodeC.imports [] = none := by
        have e : nodeC.imports = ["D"] := rfl
        rw [e, addImports_cons_eq]
        have hf : findNode cycleG "D" = some nodeD := rfl
        rw [hf]
        show (match recusiveAdd n fs0 cycleG NewCache nodeD with
          | none => none
          | some (st', cpkg) =>
            addImports n fs0 cycleG st' [] [(nodeD.pkgPath, cpkg)]) = none
        rw [ih.2]
      rw [h2]
    · rw [recusiveAdd_succ]
      have h1 : lookupA NewCache.idMap nodeD.id = none := rfl
      rw [h1]
      have h2 : addImports n fs0 cycleG NewCache nodeD.imports [] = none := by
        have e : nodeD.imports = ["C"] := rfl
        rw [e, addImports_cons_eq]
        have hf : findNode cycleG "C" = some nodeC := rfl
        rw [hf]
        show (match recusiveAdd n fs0 cycleG NewCache nodeC with
          | none => none
          | some (st', cpkg) =>
            addImports n fs0 cycleG st' [] [(nodeC.pkgPath, cpkg)]) = none
        rw [ih.1]
      rw [h2]

/-- C2 counterexample: on the cyclic graph of spec §8.1 (C depends on D, D
depends on C), `Add` from an empty cache never terminates: a node is
inserted into the id index only after its children were ingested, so the
"already present" guard never fires inside the cycle and no stack depth
suffices. -/
theorem C2_counterexample_cycle_diverges : AddDiverges fs0 cycleG nodeC :=
  fun fuel => (cycle_diverges_aux fuel).1

theorem recusiveAdd_terminates (fs : FS) (g : PkgsGraph) (rk : String → Nat)
    (hwf : WFGraph g) (hrk : RankedBy g rk) :
    ∀ N node, node ∈ g → rk node.id ≤ N → ∀ st fuel, N < fuel →
    UniqKeys st.idMap →
    ∃ st' p, recusiveAdd fuel fs g st node = some (st', p) ∧
      UniqKeys st'.idMap := by
  intro N
  induction N using Nat.strong_induction_on with
  | _ N ih =>
    intro node hnode hrank st fuel hfuel hu
    obtain ⟨f, rfl⟩ : ∃ f, fuel = f + 1 := ⟨fuel - 1, by omega⟩
    cases hc : lookupA st.idMap node.id with
    | some p =>
      refine ⟨st, p.pkg, ?_, hu⟩
      rw [recusiveAdd_succ, hc]
    | none =>
      have hloop : ∀ cids, (∀ c ∈ cids, c ∈ node.imports) →
          ∀ st2 acc, UniqKeys st2.idMap →
          ∃ st' acc', addImports f fs g st2 cids acc = some (st', acc') ∧
            UniqKeys st'.idMap := by
        intro cids
        induction cids with
        | nil =>
          intro _ st2 acc hu2
          exact ⟨st2, acc, addImports_nil_eq f fs g st2 acc, hu2⟩
        | cons c rest ihl =>
          intro hsub st2 acc hu2
          have hcmem : c ∈ node.imports := hsub c (List.mem_cons_self c rest)
          have hfind := hwf node hnode c hcmem
          obtain ⟨cnode, hcn⟩ : ∃ cn, findNode g c = some cn := by
            cases hfc : findNode g c with
            | none => rw [hfc] at hfind; exact absurd hfind (by simp)
            | some cn => exact ⟨cn, rfl⟩
          have hcn2 : List.find? (fun n => decide (n.id = c)) g = some cnode :=
            hcn
          have hcnode_mem : cnode ∈ g := List.mem_of_find?_eq_some hcn2
          have hp := List.find?_some hcn2
          have hcnode_id : cnode.id = c := by simpa using hp
          have hrk_c : rk c < rk node.id := hrk node hnode c hcmem
          have hstep := ih (rk c) (lt_of_lt_of_le hrk_c hrank) cnode
            hcnode_mem (by rw [hcnode_id]) st2 f (by omega) hu2
          obtain ⟨st3, cpkg, hrec, hu3⟩ := hstep
          have hrest := ihl
            (fun x hx => hsub x (List.mem_cons_of_mem c hx))
            st3 ((cnode.pkgPath, cpkg) :: acc) hu3
          obtain ⟨st4, acc4, hloop4, hu4⟩ := hrest
          refine ⟨st4, acc4, ?_, hu4⟩
          rw [addImports_cons_eq, hcn]
          show (match recusiveAdd f fs g st2 cnode with
            | none => none
            | some (st', cpkg) =>
              addImports f fs g st' rest ((cnode.pkgPath, cpkg) :: acc)) =
            some (st4, acc4)
          rw [hrec]
          exact hloop4
      obtain ⟨st', acc', hloop_eq, hu'⟩ :=
        hloop node.imports (fun _ h => h) st [] hu
      refine ⟨putC fs st' (createP node acc'), createP node acc', ?_,
        uniq_putC fs _ hu'⟩
      rw [recusiveAdd_succ, hc, hloop_eq]

/-- C2 amended: on an acyclic input graph (witnessed by a rank function
strictly decreasing along dependency edges, which a cyclic graph cannot
have) whose import edges all resolve, ingestion terminates within any stack
bound exceeding the root's rank, keeps the id index free of duplicate ids,
and an id already present in the cache stops recursion immediately,
returning the cached unit for the parent's wiring. -/
theorem C2_amended_acyclic_ingestion (fs : FS) (g : PkgsGraph)
    (rk : String → Nat) (st : GlobalCache) (node : PkgsNode) (fuel : Nat)
    (hwf : WFGraph g) (hrk : RankedBy g rk) (hnode : node ∈ g)
    (hfuel : rk node.id < fuel) (hu : UniqKeys st.idMap) :
    (∃ st' p, recusiveAdd fuel fs g st node = some (st', p) ∧
      UniqKeys st'.idMap) ∧
    (∀ q, lookupA st.idMap node.id = some q →
      recusiveAdd fuel fs g st node = some (st, q.pkg)) := by
  constructor
  · exact recusiveAdd_terminates fs g rk hwf hrk (rk node.id) node hnode
      le_rfl st fuel hfuel hu
  · intro q hq
    obtain ⟨f, rfl⟩ : ∃ f, fuel = f + 1 := ⟨fuel - 1, by omega⟩
    rw [recusiveAdd_succ, hq]

theorem C2_witness :
    WFGraph diamondG ∧ RankedBy diamondG diamondRk ∧
    nodeDiaA ∈ diamondG ∧ diamondRk nodeDiaA.id < 3 ∧
    UniqKeys NewCache.idMap ∧
    ((∃ st' p, recusiveAdd 3 fs0 diamondG NewCache nodeDiaA =
        some (st', p) ∧ UniqKeys st'.idMap) ∧
     (∀ q, lookupA NewCache.idMap nodeDiaA.id = some q →
       recusiveAdd 3 fs0 diamondG NewCache nodeDiaA =
         some (NewCache, q.pkg))) :=
  ⟨by decide, by decide, by decide, by decide, List.nodup_nil,
   C2_amended_acyclic_ingestion fs0 diamondG diamondRk NewCache nodeDiaA 3
     (by decide) (by decide) (by decide) (by decide) List.nodup_nil⟩

/-! ## Claim C1: consistency lemmas -/

theorem deleteC_eq_of_none {st : GlobalCache} {id : String}
    (h : lookupA st.idMap id = none) : deleteC st id = st := by
  unfold deleteC; rw [h]

theorem deleteC_fields {st : GlobalCache} {id : String} {p0 : GlobalPackage}
    (h : lookupA st.idMap id = some p0) :
    (deleteC st id).idMap = eraseA st.idMap id ∧
    (deleteC st id).pathMap = eraseA st.pathMap p0.pkg.pkgPath ∧
    (deleteC st id).fileMap =
      p0.pkg.files.foldl (fun m f => eraseA m (LowerDriver f)) st.fileMap := by
  unfold deleteC; rw [h]; exact ⟨rfl, rfl, rfl⟩

theorem lookupA_deleteC_idMap (st : GlobalCache) (id j : String) :
    lookupA (deleteC st id).idMap j =
      if id = j then none else lookupA st.idMap j := by
  cases h : lookupA st.idMap id with
  | none =>
    rw [deleteC_eq_of_none h]
    by_cases hj : id = j
    · subst hj; simp [h]
    · simp [hj]
  | some p0 => rw [(deleteC_fields h).1, lookupA_eraseA]

theorem consistent_empty : Consistent NewCache := by
  constructor <;> intro a b hab <;> simp [NewCache, lookupA] at hab

theorem consistent_path_inj {st : GlobalCache} (hc : Consistent st)
    {i id : String} {q p0 : GlobalPackage}
    (hq : lookupA st.idMap i = some q)
    (hp0 : lookupA st.idMap id = some p0)
    (heq : q.pkg.pkgPath = p0.pkg.pkgPath) : q = p0 ∧ i = id := by
  have h1 := hc.idPath i q hq
  have h2 := hc.idPath id p0 hp0
  rw [heq, h2] at h1
  have hqp : p0 = q := Option.some.inj h1
  have e1 := hc.idOk i q hq
  have e2 := hc.idOk id p0 hp0
  exact ⟨hqp.symm, by rw [← e1, ← e2, hqp]⟩

theorem consistent_file_inj {st : GlobalCache} (hc : Consistent st)
    {i id : String} {q p0 : GlobalPackage} {f f0 : String}
    (hq : lookupA st.idMap i = some q)
    (hp0 : lookupA st.idMap id = some p0)
    (hf : f ∈ q.pkg.files) (hf0 : f0 ∈ p0.pkg.files)
    (heq : LowerDriver f = LowerDriver f0) : q = p0 ∧ i = id := by
  have h1 := hc.idFile i q hq f hf
  have h2 := hc.idFile id p0 hp0 f0 hf0
  rw [heq, h2] at h1
  have hqp : p0 = q := Option.some.inj h1
  have e1 := hc.idOk i q hq
  have e2 := hc.idOk id p0 hp0
  exact ⟨hqp.symm, by rw [← e1, ← e2, hqp]⟩

theorem consistent_deleteC (st : GlobalCache) (id : String)
    (hc : Consistent st) : Consistent (deleteC st id) := by
  cases hlook : lookupA st.idMap id with
  | none => rw [deleteC_eq_of_none hlook]; exact hc
  | some p0 =>
    obtain ⟨eid, epath, efile⟩ := deleteC_fields hlook
    constructor
    · -- idOk
      intro i q hq
      rw [eid, lookupA_eraseA] at hq
      by_cases h : id = i
      · simp [h] at hq
      · rw [if_neg h] at hq; exact hc.idOk i q hq
    · -- idPath
      intro i q hq
      rw [eid, lookupA_eraseA] at hq
      by_cases h : id = i
      · simp [h] at hq
      · rw [if_neg h] at hq
        rw [epath, lookupA_eraseA]
        by_cases hpp : p0.pkg.pkgPath = q.pkg.pkgPath
        · exact absurd (consistent_path_inj hc hq hlook hpp.symm).2.symm h
        · rw [if_neg hpp]; exact hc.idPath i q hq
    · -- idFile
      intro i q hq f hf
      rw [eid, lookupA_eraseA] at hq
      by_cases h : id = i
      · simp [h] at hq
      · rw [if_neg h] at hq
        rw [efile, lookupA_foldl_eraseA]
        by_cases hmem : LowerDriver f ∈ p0.pkg.files.map LowerDriver
        · obtain ⟨f0, hf0, hldeq⟩ := List.mem_map.mp hmem
          exact absurd
            (consistent_file_inj hc hq hlook hf hf0 hldeq.symm).2.symm h
        · rw [if_neg hmem]; exact hc.idFile i q hq f hf
    · -- pathId
      intro path q hq
      rw [epath, lookupA_eraseA] at hq
      by_cases hpp : p0.pkg.pkgPath = path
      · simp [hpp] at hq
      · rw [if_neg hpp] at hq
        obtain ⟨hqpath, hqid⟩ := hc.pathId path q hq
        refine ⟨hqpath, ?_⟩
        rw [eid, lookupA_eraseA]
        by_cases hid : id = q.pkg.id
        · rw [← hid] at hqid
          have := Option.some.inj (hlook.symm.trans hqid)
          subst this
          exact absurd hqpath hpp
        · rw [if_neg hid]; exact hqid
    · -- fileId
      intro k q hq
      rw [efile, lookupA_foldl_eraseA] at hq
      by_cases hmem : k ∈ p0.pkg.files.map LowerDriver
      · simp [hmem] at hq
      · rw [if_neg hmem] at hq
        obtain ⟨hex, hqid⟩ := hc.fileId k q hq
        refine ⟨hex, ?_⟩
        rw [eid, lookupA_eraseA]
        by_cases hid : id = q.pkg.id
        · rw [← hid] at hqid
          have := Option.some.inj (hlook.symm.trans hqid)
          subst this
          obtain ⟨f, hfq, hfk⟩ := hex
          exact absurd (hfk ▸ List.mem_map_of_mem LowerDriver hfq) hmem
        · rw [if_neg hid]; exact hqid

theorem consistent_insert_all (st1 st2 : GlobalCache) (P : GlobalPackage)
    (hc1 : Consistent st1)
    (e1 : st2.idMap = insertA st1.idMap P.pkg.id P)
    (e2 : st2.pathMap = insertA st1.pathMap P.pkg.pkgPath P)
    (e3 : st2.fileMap =
      P.pkg.files.foldl (fun m f => insertA m (LowerDriver f) P) st1.fileMap)
    (hid : lookupA st1.idMap P.pkg.id = none)
    (hpath : lookupA st1.pathMap P.pkg.pkgPath = none)
    (hfile : ∀ f ∈ P.pkg.files, lookupA st1.fileMap (LowerDriver f) = none) :
    Consistent st2 := by
  constructor
  · -- idOk
    intro i q hq
    rw [e1, lookupA_insertA] at hq
    by_cases h : P.pkg.id = i
    · rw [if_pos h] at hq
      obtain rfl : P = q := Option.some.inj hq
      exact h
    · rw [if_neg h] at hq; exact hc1.idOk i q hq
  · -- idPath
    intro i q hq
    rw [e1, lookupA_insertA] at hq
    rw [e2]
    by_cases h : P.pkg.id = i
    · rw [if_pos h] at hq
      obtain rfl : P = q := Option.some.inj hq
      rw [lookupA_insertA, if_pos rfl]
    · rw [if_neg h] at hq
      have hip := hc1.idPath i q hq
      rw [lookupA_insertA]
      by_cases hpp : P.pkg.pkgPath = q.pkg.pkgPath
      · rw [hpp] at hpath
        rw [hip] at hpath
        exact Option.noConfusion hpath
      · rw [if_neg hpp]; exact hip
  · -- idFile
    intro i q hq f hf
    rw [e1, lookupA_insertA] at hq
    rw [e3, lookupA_foldl_insertA]
    by_cases h : P.pkg.id = i
    · rw [if_pos h] at hq
      obtain rfl : P = q := Option.some.inj hq
      rw [if_pos (List.mem_map_of_mem LowerDriver hf)]
    · rw [if_neg h] at hq
      have hif := hc1.idFile i q hq f hf
      by_cases hmem : LowerDriver f ∈ P.pkg.files.map LowerDriver
      · obtain ⟨f0, hf0, heq⟩ := List.mem_map.mp hmem
        have hn := hfile f0 hf0
        rw [heq, hif] at hn
        exact Option.noConfusion hn
      · rw [if_neg hmem]; exact hif
  · -- pathId
    intro path q hq
    rw [e2, lookupA_insertA] at hq
    rw [e1]
    by_cases h : P.pkg.pkgPath = path
    · rw [if_pos h] at hq
      obtain rfl : P = q := Option.some.inj hq
      exact ⟨h, by rw [lookupA_insertA, if_pos rfl]⟩
    · rw [if_neg h] at hq
      obtain ⟨hqp, hqid⟩ := hc1.pathId path q hq
      refine ⟨hqp, ?_⟩
      rw [lookupA_insertA]
      by_cases hi : P.pkg.id = q.pkg.id
      · rw [hi, hqid] at hid
        exact Option.noConfusion hid
      · rw [if_neg hi]; exact hqid
  · -- fileId
    intro k q hq
    rw [e3, lookupA_foldl_insertA] at hq
    rw [e1]
    by_cases hmem : k ∈ P.pkg.files.map LowerDriver
    · rw [if_pos hmem] at hq
      obtain rfl : P = q := Option.some.inj hq
      obtain ⟨f, hfm, hfk⟩ := List.mem_map.mp hmem
      exact ⟨⟨f, hfm, hfk⟩, by rw [lookupA_insertA, if_pos rfl]⟩
    · rw [if_neg hmem] at hq
      obtain ⟨hex, hqid⟩ := hc1.fileId k q hq
      refine ⟨hex, ?_⟩
      rw [lookupA_insertA]
      by_cases hi : P.pkg.id = q.pkg.id
      · rw [hi, hqid] at hid
        exact Option.noConfusion hid
      · rw [if_neg hi]; exact hqid

theorem consistent_putC (fs : FS) (st : GlobalCache) (pkg : Package)
    (hc : Consistent st)
    (hpath : ∀ q, lookupA st.pathMap pkg.pkgPath = some q →
      q.pkg.id = pkg.id)
    (hfile : ∀ f ∈ pkg.files, ∀ q,
      lookupA st.fileMap (LowerDriver f) = some q → q.pkg.id = pkg.id) :
    Consistent (putC fs st pkg) := by
  have hc1 := consistent_deleteC st pkg.id hc
  have hC : lookupA (deleteC st pkg.id).idMap pkg.id = none := by
    rw [lookupA_deleteC_idMap]; simp
  have hA : lookupA (deleteC st pkg.id).pathMap pkg.pkgPath = none := by
    cases hsp : lookupA st.pathMap pkg.pkgPath with
    | none =>
      cases hlk : lookupA st.idMap pkg.id with
      | none => rw [deleteC_eq_of_none hlk]; exact hsp
      | some p0 =>
        rw [(deleteC_fields hlk).2.1, lookupA_eraseA]
        by_cases h : p0.pkg.pkgPath = pkg.pkgPath
        · rw [if_pos h]
        · rw [if_neg h]; exact hsp
    | some q =>
      have hqid : q.pkg.id = pkg.id := hpath q hsp
      obtain ⟨hqp, hqidm⟩ := hc.pathId pkg.pkgPath q hsp
      have hlk : lookupA st.idMap pkg.id = some q := by
        rw [← hqid]; exact hqidm
      rw [(deleteC_fields hlk).2.1, lookupA_eraseA, if_pos hqp]
  have hB : ∀ f ∈ pkg.files,
      lookupA (deleteC st pkg.id).fileMap (LowerDriver f) = none := by
    intro f hf
    cases hsf : lookupA st.fileMap (LowerDriver f) with
    | none =>
      cases hlk : lookupA st.idMap pkg.id with
      | none => rw [deleteC_eq_of_none hlk]; exact hsf
      | some p0 =>
        rw [(deleteC_fields hlk).2.2, lookupA_foldl_eraseA]
        by_cases h : LowerDriver f ∈ p0.pkg.files.map LowerDriver
        · rw [if_pos h]
        · rw [if_neg h]; exact hsf
    | some q =>
      have hqid := hfile f hf q hsf
      obtain ⟨⟨f0, hf0, hldk⟩, hqidm⟩ := hc.fileId (LowerDriver f) q hsf
      have hlk : lookupA st.idMap pkg.id = some q := by
        rw [← hqid]; exact hqidm
      rw [(deleteC_fields hlk).2.2, lookupA_foldl_eraseA,
        if_pos (hldk ▸ List.mem_map_of_mem LowerDriver hf0)]
  exact consistent_insert_all (deleteC st pkg.id) (putC fs st pkg)
    ⟨pkg, getPackageModTime fs (some pkg)⟩ hc1 rfl rfl rfl hC hA hB

theorem cachedSigsIn_deleteC {st : GlobalCache} {us : List Sig} (id : String)
    (h : CachedSigsIn st us) : CachedSigsIn (deleteC st id) us := by
  intro i p hp
  rw [lookupA_deleteC_idMap] at hp
  by_cases hj : id = i
  · simp [hj] at hp
  · rw [if_neg hj] at hp; exact h i p hp

theorem cachedSigsIn_putC (fs : FS) {st : GlobalCache} {us : List Sig}
    (pkg : Package) (hsig : pkg.sig ∈ us) (h : CachedSigsIn st us) :
    CachedSigsIn (putC fs st pkg) us := by
  intro i p hp
  have e : (putC fs st pkg).idMap =
      insertA (deleteC st pkg.id).idMap pkg.id
        ⟨pkg, getPackageModTime fs (some pkg)⟩ := rfl
  rw [e, lookupA_insertA] at hp
  by_cases hj : pkg.id = i
  · rw [if_pos hj] at hp
    obtain rfl : (⟨pkg, getPackageModTime fs (some pkg)⟩ : GlobalPackage) = p :=
      Option.some.inj hp
    exact hsig
  · rw [if_neg hj] at hp
    exact cachedSigsIn_deleteC pkg.id h i p hp

theorem inv_putC (fs : FS) {st : GlobalCache} {us : List Sig} (pkg : Package)
    (hcf : ClashFreeList us) (hsig : pkg.sig ∈ us) (h : CacheInv st us) :
    CacheInv (putC fs st pkg) us := by
  obtain ⟨hc, hs⟩ := h
  have hpath : ∀ q, lookupA st.pathMap pkg.pkgPath = some q →
      q.pkg.id = pkg.id := by
    intro q hq
    obtain ⟨hqp, hqid⟩ := hc.pathId pkg.pkgPath q hq
    have hqs : q.pkg.sig ∈ us := hs q.pkg.id q hqid
    exact (hcf q.pkg.sig hqs pkg.sig hsig).1 hqp
  have hfile : ∀ f ∈ pkg.files, ∀ q,
      lookupA st.fileMap (LowerDriver f) = some q → q.pkg.id = pkg.id := by
    intro f hf q hq
    obtain ⟨⟨f0, hf0, hld⟩, hqid⟩ := hc.fileId (LowerDriver f) q hq
    have hqs : q.pkg.sig ∈ us := hs q.pkg.id q hqid
    exact (hcf q.pkg.sig hqs pkg.sig hsig).2 f0 hf0 f hf hld
  exact ⟨consistent_putC fs st pkg hc hpath hfile,
    cachedSigsIn_putC fs pkg hsig hs⟩

theorem inv_deleteC {st : GlobalCache} {us : List Sig} (id : String)
    (h : CacheInv st us) : CacheInv (deleteC st id) us :=
  ⟨consistent_deleteC st id h.1, cachedSigsIn_deleteC id h.2⟩

theorem inv_foldl_deleteC {us : List Sig} :
    ∀ (l : List String) (st : GlobalCache), CacheInv st us →
      CacheInv (l.foldl deleteC st) us := by
  intro l
  induction l with
  | nil => intro st h; exact h
  | cons a l ih =>
    intro st h
    exact ih (deleteC st a) (inv_deleteC a h)

theorem inv_cleanC {st : GlobalCache} {us : List Sig} (ids : List String)
    (h : CacheInv st us) : CacheInv (cleanC st ids) us := by
  cases ids with
  | nil => exact h
  | cons a l => exact inv_foldl_deleteC (a :: l) st h

/-! Rewriting forms of the ingestion equations, for use on hypotheses. -/

theorem recusiveAdd_succ_cached {f : Nat} {fs : FS} {g : PkgsGraph}
    {st : GlobalCache} {node : PkgsNode} {p : GlobalPackage}
    (hc : lookupA st.idMap node.id = some p) :
    recusiveAdd (f + 1) fs g st node = some (st, p.pkg) := by
  rw [recusiveAdd_succ, hc]

theorem recusiveAdd_succ_new {f : Nat} {fs : FS} {g : PkgsGraph}
    {st st2 : GlobalCache} {node : PkgsNode} {acc : List (String × Package)}
    (hc : lookupA st.idMap node.id = none)
    (him : addImports f fs g st node.imports [] = some (st2, acc)) :
    recusiveAdd (f + 1) fs g st node =
      some (putC fs st2 (createP node acc), createP node acc) := by
  rw [recusiveAdd_succ, hc]
  show (match addImports f fs g st node.imports [] with
    | none => none
    | some (st', acc) =>
      some (putC fs st' (createP node acc), createP node acc)) = _
  rw [him]

theorem recusiveAdd_succ_new_none {f : Nat} {fs : FS} {g : PkgsGraph}
    {st : GlobalCache} {node : PkgsNode}
    (hc : lookupA st.idMap node.id = none)
    (him : addImports f fs g st node.imports [] = none) :
    recusiveAdd (f + 1) fs g st node = none := by
  rw [recusiveAdd_succ, hc]
  show (match addImports f fs g st node.imports [] with
    | none => none
    | some (st', acc) =>
      some (putC fs st' (createP node acc), createP node acc)) = _
  rw [him]

theorem addImports_cons_none_find {f : Nat} {fs : FS} {g : PkgsGraph}
    {st : GlobalCache} {c : String} {rest : List String}
    {acc : List (String × Package)} (hfn : findNode g c = none) :
    addImports f fs g st (c :: rest) acc = none := by
  rw [addImports_cons_eq, hfn]

theorem addImports_cons_none_rec {f : Nat} {fs : FS} {g : PkgsGraph}
    {st : GlobalCache} {c : String} {rest : List String}
    {acc : List (String × Package)} {cnode : PkgsNode}
    (hfn : findNode g c = some cnode)
    (hrec : recusiveAdd f fs g st cnode = none) :
    addImports f fs g st (c :: rest) acc = none := by
  rw [addImports_cons_eq, hfn]
  show (match recusiveAdd f fs g st cnode with
    | none => none
    | some (st', cpkg) =>
      addImports f fs g st' rest ((cnode.pkgPath, cpkg) :: acc)) = _
  rw [hrec]

theorem addImports_cons_step {f : Nat} {fs : FS} {g : PkgsGraph}
    {st st2 : GlobalCache} {c : String} {rest : List String}
    {acc : List (String × Package)} {cnode : PkgsNode} {cpkg : Package}
    (hfn : findNode g c = some cnode)
    (hrec : recusiveAdd f fs g st cnode = some (st2, cpkg)) :
    addImports f fs g st (c :: rest) acc =
      addImports f fs g st2 rest ((cnode.pkgPath, cpkg) :: acc) := by
  rw [addImports_cons_eq, hfn]
  show (match recusiveAdd f fs g st cnode with
    | none => none
    | some (st', cpkg) =>
      addImports f fs g st' rest ((cnode.pkgPath, cpkg) :: acc)) = _
  rw [hrec]

theorem createP_sig (node : PkgsNode) (acc : List (String × Package)) :
    (createP node acc).sig = node.sig := rfl

theorem inv_recusiveAdd (fs : FS) (g : PkgsGraph) (us : List Sig)
    (hcf : ClashFreeList us) (hnodes : ∀ n ∈ g, n.sig ∈ us) :
    ∀ fuel,
      (∀ node st st' p, node.sig ∈ us → CacheInv st us →
        recusiveAdd fuel fs g st node = some (st', p) → CacheInv st' us) ∧
      (∀ cids st acc st' acc', CacheInv st us →
        addImports fuel fs g st cids acc = some (st', acc') →
          CacheInv st' us) := by
  intro fuel
  induction fuel with
  | zero =>
    constructor
    · intro node st st' p _ _ heq
      rw [recusiveAdd_zero] at heq
      exact Option.noConfusion heq
    · intro cids st acc st' acc' hinv heq
      cases cids with
      | nil =>
        rw [addImports_nil_eq] at heq
        have hpair := Option.some.inj heq
        have hst : st = st' := congrArg Prod.fst hpair
        rw [← hst]; exact hinv
      | cons c rest =>
        cases hfn : findNode g c with
        | none =>
          rw [addImports_cons_none_find hfn] at heq
          exact Option.noConfusion heq
        | some cnode =>
          rw [addImports_cons_none_rec hfn (recusiveAdd_zero fs g st cnode)]
            at heq
          exact Option.noConfusion heq
  | succ n ih =>
    have hP : ∀ node st st' p, node.sig ∈ us → CacheInv st us →
        recusiveAdd (n + 1) fs g st node = some (st', p) →
          CacheInv st' us := by
      intro node st st' p hsig hinv heq
      cases hc : lookupA st.idMap node.id with
      | some q =>
        rw [recusiveAdd_succ_cached hc] at heq
        have hpair := Option.some.inj heq
        have hst : st = st' := congrArg Prod.fst hpair
        rw [← hst]; exact hinv
      | none =>
        cases him : addImports n fs g st node.imports [] with
        | none =>
          rw [recusiveAdd_succ_new_none hc him] at heq
          exact Option.noConfusion heq
        | some pr =>
          obtain ⟨st2, acc⟩ := pr
          rw [recusiveAdd_succ_new hc him] at heq
          have hpair := Option.some.inj heq
          have hst : putC fs st2 (createP node acc) = st' :=
            congrArg Prod.fst hpair
          rw [← hst]
          have hinv2 := ih.2 node.imports st [] st2 acc hinv him
          exact inv_putC fs (createP node acc) hcf
            (createP_sig node acc ▸ hsig) hinv2
    refine ⟨hP, ?_⟩
    intro cids
    induction cids with
    | nil =>
      intro st acc st' acc' hinv heq
      rw [addImports_nil_eq] at heq
      have hpair := Option.some.inj heq
      have hst : st = st' := congrArg Prod.fst hpair
      rw [← hst]; exact hinv
    | cons c rest ihl =>
      intro st acc st' acc' hinv heq
      cases hfn : findNode g c with
      | none =>
        rw [addImports_cons_none_find hfn] at heq
        exact Option.noConfusion heq
      | some cnode =>
        cases hrec : recusiveAdd (n + 1) fs g st cnode with
        | none =>
          rw [addImports_cons_none_rec hfn hrec] at heq
          exact Option.noConfusion heq
        | some pr =>
          obtain ⟨st2, cpkg⟩ := pr
          rw [addImports_cons_step hfn hrec] at heq
          have hcn2 : List.find? (fun n => decide (n.id = c)) g = some cnode :=
            hfn
          have hcmem : cnode ∈ g := List.mem_of_find?_eq_some hcn2
          have hinv2 := hP cnode st st2 cpkg (hnodes cnode hcmem) hinv hrec
          exact ihl st2 ((cnode.pkgPath, cpkg) :: acc) st' acc' hinv2 heq

theorem inv_execOp (fs : FS) (us : List Sig) (hcf : ClashFreeList us)
    (st : GlobalCache) (op : CacheOp)
    (hop : ∀ s ∈ opSigs op, s ∈ us) (h : CacheInv st us) :
    CacheInv (execOp fs st op) us := by
  cases op with
  | opPut pkg =>
    exact inv_putC fs pkg hcf (hop pkg.sig (List.mem_singleton.mpr rfl)) h
  | opDelete i => exact inv_deleteC i h
  | opClean ids => exact inv_cleanC ids h
  | opAdd g root fuel =>
    show CacheInv
      (match recusiveAdd fuel fs g st root with
        | none => st
        | some (st', _) => st') us
    cases hr : recusiveAdd fuel fs g st root with
    | none => exact h
    | some pr =>
      obtain ⟨st2, p⟩ := pr
      have hroot : root.sig ∈ us := hop root.sig (List.mem_cons_self _ _)
      have hnodes : ∀ n ∈ g, n.sig ∈ us := fun n hn =>
        hop n.sig (List.mem_cons_of_mem _ (List.mem_map_of_mem _ hn))
      exact (inv_recusiveAdd fs g us hcf hnodes fuel).1 root st st2 p hroot h
        hr

theorem inv_execOps (fs : FS) (us : List Sig) (hcf : ClashFreeList us) :
    ∀ (ops : List CacheOp) (st : GlobalCache),
      (∀ op ∈ ops, ∀ s ∈ opSigs op, s ∈ us) → CacheInv st us →
      CacheInv (execOps fs ops st) us := by
  intro ops
  induction ops with
  | nil => intro st _ h; exact h
  | cons op rest ih =>
    intro st hop h
    show CacheInv (execOps fs rest (execOp fs st op)) us
    exact ih (execOp fs st op)
      (fun o ho s hs => hop o (List.mem_cons_of_mem _ ho) s hs)
      (inv_execOp fs us hcf st op (hop op (List.mem_cons_self _ _)) h)

/-- C1 amended: after every sequence of `Put`/`Delete`/`Clean`/`Add`
operations starting from the empty cache, provided no two units the
sequence can ingest carry the same canonical path or the same lower-cased
member file under distinct ids, every cached unit is reachable through all
three indices and every path/file index entry leads back to the id index.
Without that proviso the invariant fails: `put` only evicts the unit with
the *same* id, so a colliding path/file entry of a different id strands the
older unit (see the counterexample). -/
theorem C1_amended_three_index_consistency (fs : FS) (ops : List CacheOp)
    (hcf : ClashFreeList (opsSigs ops)) :
    Consistent (execOps fs ops NewCache) := by
  have base : CacheInv NewCache (opsSigs ops) :=
    ⟨consistent_empty, fun i p hp => by simp [NewCache, lookupA] at hp⟩
  have hops : ∀ op ∈ ops, ∀ s ∈ opSigs op, s ∈ opsSigs ops :=
    fun op ho s hs => List.mem_flatMap.mpr ⟨op, ho, hs⟩
  exact (inv_execOps fs (opsSigs ops) hcf ops NewCache hops base).1

/-- C1 counterexample: `Put` of `pkgB` (id `b`, path `pkg/a`) over a cache
holding `pkgA` (id `a`, same path `pkg/a`) strands `pkgA`: it is still
reachable through the id index while the path index entry for its canonical
path now belongs to `pkgB` — a unit present in one index but absent from
another. -/
theorem C1_counterexample_stranded_unit :
    (lookupA (putC fs0 (putC fs0 NewCache pkgA) pkgB).idMap "a").map
        (fun p => p.pkg.id) = some "a" ∧
    (lookupA (putC fs0 (putC fs0 NewCache pkgA) pkgB).pathMap "pkg/a").map
        (fun p => p.pkg.id) = some "b" ∧
    ¬ Consistent (putC fs0 (putC fs0 NewCache pkgA) pkgB) := by
  refine ⟨rfl, rfl, fun hcon => ?_⟩
  have h1 : lookupA (putC fs0 (putC fs0 NewCache pkgA) pkgB).idMap "a" =
      some ⟨pkgA, 0⟩ := rfl
  have h2 := hcon.idPath "a" ⟨pkgA, 0⟩ h1
  have h3 : lookupA (putC fs0 (putC fs0 NewCache pkgA) pkgB).pathMap
      (GlobalPackage.pkg ⟨pkgA, 0⟩).pkgPath = some ⟨pkgB, 0⟩ := rfl
  rw [h3] at h2
  have h4 := congrArg (fun o => Option.map
    (fun p : GlobalPackage => p.pkg.id) o) h2
  exact absurd (show (some "b" : Option String) = some "a" from h4)
    (by decide)

theorem C1_witness :
    ClashFreeList (opsSigs
      [CacheOp.opPut pkgA, CacheOp.opDelete "a", CacheOp.opPut pkgSrc,
       CacheOp.opClean ["s"]]) ∧
    Consistent (execOps fs0
      [CacheOp.opPut pkgA, CacheOp.opDelete "a", CacheOp.opPut pkgSrc,
       CacheOp.opClean ["s"]] NewCache) :=
  ⟨by decide,
   C1_amended_three_index_consistency fs0
     [CacheOp.opPut pkgA, CacheOp.opDelete "a", CacheOp.opPut pkgSrc,
      CacheOp.opClean ["s"]] (by decide)⟩

end Bingo
